import Mathlib

/-!
Verification of the per-user bounded conversation state manager of the
princelab-whatsapp-bot repository (src/index.js): the per-user rate
limiter (`checkUserLimit`), the capped conversation store
(`trimToLimit`, `pushToHistory`), the smart-context builder
(`askAIWithSmartContext`, modelled as `buildContext`), and the
incremental summarizer (`updateSummary`).

Conventions of the shallow embedding:
* JavaScript timestamps (`Date.now()`) are modelled as `Int`
  milliseconds; `now - t < 60 * 1000` is Int arithmetic exactly as in
  the source.
* JavaScript `Map` objects are modelled as association lists in
  insertion order (a JS `Map` iterates in insertion order, and setting
  an existing key keeps its position).
* External collaborators (the OpenAI completion calls) are passed in as
  explicit functions; a call that may fail is an `Except`; the optional
  chain `completion.choices?.[0]?.message?.content` is an
  `Option String`.
* JS string truthiness (`if (record.summary)`, `if (oldestKey)`,
  `x || y`) is modelled as emptiness tests on `String`.
-/

set_option maxRecDepth 100000

namespace PrinceBot

/-- One chat message, `{ role, content }` as pushed by the source. -/
structure Turn where
  role : String
  content : String
deriving DecidableEq, Repr

/-! ## Rate limiter (src/index.js lines 36-56) -/

/-- The per-user rate record `{ min: [], hour: [] }` of timestamps. -/
structure RateRec where
  min : List Int
  hour : List Int
deriving DecidableEq, Repr

/-- The value returned by `checkUserLimit`: `{ ok, scope }`
(`scope` is absent on success). -/
structure Decision where
  ok : Bool
  scope : Option String
deriving DecidableEq, Repr

/-- The minute window, 60 * 1000 ms. -/
def MINUTE_MS : Int := 60 * 1000

/-- The hour window, 60 * 60 * 1000 ms. -/
def HOUR_MS : Int := 60 * 60 * 1000

/-- Window pruning, `rec.win.filter((t) => now - t < dur)`: keep timestamps within
`dur` of `now`. -/
def pruneWin (dur now : Int) (l : List Int) : List Int :=
  l.filter (fun t => decide (now - t < dur))

/-- Function `checkUserLimit` of src/index.js lines 41-56, at the level of
the record of one user; the decision and the post-state of the record.  `pm` and
`ph` are the configured `PER_MIN` / `PER_HOUR` limits (defaults 6/60,
overridable by environment). -/
def checkUserLimit (pm ph : Nat) (now : Int) (rec : RateRec) : Decision × RateRec :=
  let m := pruneWin MINUTE_MS now rec.min
  let h := pruneWin HOUR_MS now rec.hour
  if pm ≤ m.length then (⟨false, some "minute"⟩, ⟨m, h⟩)
  else if ph ≤ h.length then (⟨false, some "hour"⟩, ⟨m, h⟩)
  else (⟨true, none⟩, ⟨m ++ [now], h ++ [now]⟩)

/-- Run a sequence of `checkUserLimit` calls at the given timestamps,
threading the record; returns each call time paired with its decision,
and the final record. -/
def runRate (pm ph : Nat) (rec : RateRec) : List Int → List (Int × Decision) × RateRec
  | [] => ([], rec)
  | t :: ts =>
    let step := checkUserLimit pm ph t rec
    let rest := runRate pm ph step.2 ts
    ((t, step.1) :: rest.1, rest.2)

/-- Timestamps of the calls that were admitted (`ok = true`). -/
def admittedTimes (pm ph : Nat) (rec : RateRec) (ts : List Int) : List Int :=
  ((runRate pm ph rec ts).1.filter (fun p => p.2.ok)).map Prod.fst

/-! ## Conversation store (src/index.js lines 58-115) -/

/-- Constant `HISTORY_LIMIT = 100`. -/
def HISTORY_LIMIT : Nat := 100

/-- Constant `RECENT_RAW_LIMIT = 50`. -/
def RECENT_RAW_LIMIT : Nat := 50

/-- Constant `MAX_USERS_IN_MEMORY = 500`. -/
def MAX_USERS_IN_MEMORY : Nat := 500

/-- One per-user conversation record, as created by `getRecord`:
`{ messages: [], summary: "", summarizedCount: 0, lastSeen: Date.now() }`. -/
structure Record where
  messages : List Turn
  summary : String
  summarizedCount : Nat
  lastSeen : Int
deriving DecidableEq, Repr

/-- Fresh record created by `getRecord` for a new user. -/
def freshRecord (now : Int) : Record :=
  ⟨[], "", 0, now⟩

/-- Function `trimToLimit` of src/index.js lines 84-95: if over `HISTORY_LIMIT`,
drop the oldest `overflow` messages and lower `summarizedCount` by
`overflow`, floored at 0 (`Math.max(0, ...)` is `Nat` subtraction). -/
def trimToLimit (rec : Record) : Record :=
  if rec.messages.length ≤ HISTORY_LIMIT then rec
  else
    let overflow := rec.messages.length - HISTORY_LIMIT
    { rec with
      messages := rec.messages.drop overflow,
      summarizedCount := rec.summarizedCount - overflow }

/-- The record-level effect of `pushToHistory` (lines 97-101):
`record.messages.push({ role, content }); trimToLimit(record)`. -/
def appendTurn (rec : Record) (t : Turn) : Record :=
  trimToLimit { rec with messages := rec.messages ++ [t] }

/-! ## Smart context builder (src/index.js lines 203-249)

`askAIWithSmartContext` fetches the record, incrementally summarizes the
turns that aged out of the recent window, and assembles
`messagesForModel`.  We model the state update and prompt assembly
(everything up to the main model call) as the pure `buildContext`,
parameterized by the summarizer (`updateSummary`, which never throws —
it catches collaborator errors internally, see below).  The third
component of the result logs every summarizer invocation as
(existing summary, chunk of turns passed). -/

/-- The fixed system instruction of `messagesForModel`. -/
def systemInstruction : String :=
  "You are a concise WhatsApp assistant. Answer in 2–4 short sentences. Plain text only."

/-- The leading system message. -/
def sysTurn : Turn :=
  ⟨"system", systemInstruction⟩

/-- The optional system message carrying the running summary. -/
def summaryTurn (s : String) : Turn :=
  ⟨"system", "Conversation summary (older context): " ++ s⟩

/-- Lines 227-242: `messagesForModel` — the fixed system instruction,
the summary entry pushed only when `record.summary` is truthy
(non-empty), then the recent turns. -/
def contextList (sum : String) (recent : List Turn) : List Turn :=
  if sum = "" then sysTurn :: recent
  else sysTurn :: summaryTurn sum :: recent

/-- Lines 205-243 of src/index.js: the summary update and the prompt
assembly.  Returns (updated record, `messagesForModel`, summarizer
invocation log).  `msgs.slice(a, b)` is `(msgs.drop a).take (b - a)`;
`msgs.slice(-RECENT_RAW_LIMIT)` is `msgs.drop (msgs.length - RECENT_RAW_LIMIT)`;
`Math.max(0, msgs.length - RECENT_RAW_LIMIT)` is `Nat` subtraction. -/
def buildContext (summarize : String → List Turn → String) (rec : Record) :
    Record × List Turn × List (String × List Turn) :=
  let msgs := rec.messages
  let olderCount := msgs.length - RECENT_RAW_LIMIT
  let updated :=
    if 0 < olderCount then
      if rec.summarizedCount < olderCount then
        let newChunk := (msgs.drop rec.summarizedCount).take (olderCount - rec.summarizedCount)
        ({ rec with
            summary := summarize rec.summary newChunk,
            summarizedCount := olderCount },
          [(rec.summary, newChunk)])
      else (rec, [])
    else ({ rec with summary := "", summarizedCount := 0 }, [])
  let rec1 := updated.1
  let recent := msgs.drop (msgs.length - RECENT_RAW_LIMIT)
  (rec1, contextList rec1.summary recent, updated.2)

/-! ## Summarizer (src/index.js lines 256-291) -/

/-- The system prompt of the summary call. -/
def summarySystemPrompt : String :=
  "You update a running conversation summary. Keep it short, factual, and plain text. " ++
  "Preserve important names, decisions, preferences, and unresolved questions. " ++
  "No markdown."

/-- The two-message request body sent to the summary model, built from
the existing summary and the rendered chunk text
(`${existingSummary || "(none)"}` is the emptiness test). -/
def summaryRequest (existingSummary chunkText : String) : List Turn :=
  [⟨"system", summarySystemPrompt⟩,
   ⟨"user",
    "Existing summary:\n" ++ (if existingSummary = "" then "(none)" else existingSummary) ++
    "\n\nNew messages to incorporate:\n" ++ chunkText ++
    "\n\nReturn the updated summary only."⟩]

/-- Chunk rendering, `newMessages.map((m) => m.role.toUpperCase() + ": " + m.content).join("\n")`. -/
def renderChunk (newMessages : List Turn) : String :=
  String.intercalate "\n"
    (newMessages.map (fun m => m.role.toUpper ++ ": " ++ m.content))

/-- Function `updateSummary` of src/index.js lines 256-291.  The external
completion collaborator is `complete`; `Except.error` is a thrown
request error (caught by the try/catch in the source); the `ok` payload is
the optional chain `completion.choices?.[0]?.message?.content`, to
which `.trim()` and the `|| existingSummary || ""` fallbacks apply.
The `Bool` records whether the collaborator was called. -/
def updateSummary (complete : List Turn → Except Unit (Option String))
    (existingSummary : String) (newMessages : List Turn) : String × Bool :=
  if newMessages.length = 0 then (existingSummary, false)
  else
    let chunkText := renderChunk newMessages
    match complete (summaryRequest existingSummary chunkText) with
    | Except.error _ => (existingSummary, true)
    | Except.ok o =>
      let c := match o with
        | some str => str.trim
        | none => ""
      (if c = "" then existingSummary else c, true)

/-! ## The user maps (src/index.js lines 37, 65, 97-115)

`historyByUser` and `userRate` are JS `Map`s; modelled as association
lists in insertion order.  `pushToHistory` touches only
`historyByUser`: it upserts the record (`getRecord`, which refreshes
`lastSeen`), appends the turn, trims, and — when the map holds more
than `MAX_USERS_IN_MEMORY` users — scans for the user with the oldest
`lastSeen` and deletes it, guarded by the JS truthiness test
`if (oldestKey)` (false for `null` and for the empty string). -/

/-- Map from user id to conversation record, insertion-ordered. -/
abbrev HistMap := List (String × Record)

/-- The combined mutable state: `historyByUser` and `userRate`. -/
structure StoreState where
  historyByUser : HistMap
  userRate : List (String × RateRec)
deriving DecidableEq, Repr

/-- Map-level `getRecord` (lines 70-82): create the record if
absent (appended at the end, as a JS `Map` does), and set
`lastSeen = now`. -/
def getRecordStore (now : Int) (uid : String) (m : HistMap) : HistMap :=
  if m.any (fun kv => kv.1 == uid) then
    m.map (fun kv => if kv.1 == uid then (kv.1, { kv.2 with lastSeen := now }) else kv)
  else m ++ [(uid, freshRecord now)]

/-- One step of the `for (const [k, v] of historyByUser.entries())`
scan of lines 105-112: running strict minimum of `lastSeen` (first key
wins ties, as the loop only replaces on `<`); the `none` accumulator is
the initial `oldestKey = null` / `oldestTime = Infinity`. -/
def olderAcc (acc : Option (String × Int)) (kv : String × Record) : Option (String × Int) :=
  match acc with
  | none => some (kv.1, kv.2.lastSeen)
  | some (k, t) => if kv.2.lastSeen < t then some (kv.1, kv.2.lastSeen) else some (k, t)

/-- The `oldestKey` computed by the eviction scan. -/
def oldestEntry (m : HistMap) : Option String :=
  (m.foldl olderAcc none).map Prod.fst

/-- Lines 103-114: evict the oldest user when over capacity.
`if (oldestKey)` is JS-truthy: skipped for `null` and for `""`. -/
def evictIfNeeded (m : HistMap) : HistMap :=
  if MAX_USERS_IN_MEMORY < m.length then
    match oldestEntry m with
    | some k => if k = "" then m else m.eraseP (fun kv => kv.1 == k)
    | none => m
  else m

/-- The map after `getRecord` + `messages.push` + `trimToLimit`
(lines 98-101), before the capacity check. -/
def histAfterAppend (now : Int) (uid role content : String) (m : HistMap) : HistMap :=
  (getRecordStore now uid m).map
    (fun kv => if kv.1 == uid then (kv.1, appendTurn kv.2 ⟨role, content⟩) else kv)

/-- Function `pushToHistory` of src/index.js lines 97-115, over the whole store
state.  Note that the eviction branch deletes from `historyByUser`
only; `userRate` is passed through untouched (the source never
references `userRate` inside `pushToHistory`). -/
def pushToHistory (now : Int) (uid role content : String) (st : StoreState) : StoreState :=
  { st with historyByUser := evictIfNeeded (histAfterAppend now uid role content st.historyByUser) }

/-! ## Helper lemmas: the eviction step of the history cap (C1) -/

/-- Unconditional characterization of one append: the `overflow`
oldest turns are dropped and `summarizedCount` is lowered by
`overflow`, floored at 0 (with `overflow = 0` when the cap is not
exceeded). -/
theorem appendTurn_eq (r : Record) (t : Turn) :
    appendTurn r t =
      { messages := (r.messages ++ [t]).drop (r.messages.length + 1 - HISTORY_LIMIT),
        summary := r.summary,
        summarizedCount := r.summarizedCount - (r.messages.length + 1 - HISTORY_LIMIT),
        lastSeen := r.lastSeen } := by
  simp only [appendTurn, trimToLimit, List.length_append, List.length_cons, List.length_nil]
  split
  · next hle =>
    have h0 : r.messages.length + 1 - HISTORY_LIMIT = 0 := by
      simp at hle; omega
    simp [h0]
  · rfl

/-- The per-record invariant: cap respected, summarization index in
range. -/
def RecordOK (r : Record) : Prop :=
  r.messages.length ≤ HISTORY_LIMIT ∧ r.summarizedCount ≤ r.messages.length

theorem appendTurn_ok (r : Record) (t : Turn) (h : RecordOK r) :
    RecordOK (appendTurn r t) := by
  obtain ⟨h1, h2⟩ := h
  rw [appendTurn_eq]
  constructor <;>
    simp only [RecordOK, List.length_drop, List.length_append, List.length_cons,
      List.length_nil] <;>
    omega

theorem foldl_appendTurn_ok (ts : List Turn) (r : Record) (h : RecordOK r) :
    RecordOK (ts.foldl appendTurn r) := by
  induction ts generalizing r with
  | nil => exact h
  | cons t ts ih => exact ih (appendTurn r t) (appendTurn_ok r t h)

/-- C1: for every sequence of appends on a record with
`messages.length ≤ HISTORY_LIMIT` and
`summarizedCount ≤ messages.length` (as a fresh record has), an append
that would exceed the limit drops exactly the oldest
`overflow = messages.length − HISTORY_LIMIT` turns and lowers
`summarizedCount` by `overflow` floored at 0, and after every append
`messages.length ≤ HISTORY_LIMIT` and
`0 ≤ summarizedCount ≤ messages.length` still hold
(`summarizedCount : Nat`, so `0 ≤` is automatic). -/
theorem c1_history_cap_invariant (rec : Record) (ts : List Turn)
    (hlen : rec.messages.length ≤ HISTORY_LIMIT)
    (hsc : rec.summarizedCount ≤ rec.messages.length) :
    (∀ (r : Record) (t : Turn),
        appendTurn r t =
          { messages := (r.messages ++ [t]).drop (r.messages.length + 1 - HISTORY_LIMIT),
            summary := r.summary,
            summarizedCount := r.summarizedCount - (r.messages.length + 1 - HISTORY_LIMIT),
            lastSeen := r.lastSeen })
    ∧ (ts.foldl appendTurn rec).messages.length ≤ HISTORY_LIMIT
    ∧ (ts.foldl appendTurn rec).summarizedCount ≤ (ts.foldl appendTurn rec).messages.length := by
  have h := foldl_appendTurn_ok ts rec ⟨hlen, hsc⟩
  exact ⟨appendTurn_eq, h.1, h.2⟩

/-- Witness for C1 at a fresh record and one concrete append. -/
theorem c1_history_cap_invariant_witness :
    (freshRecord 0).messages.length ≤ HISTORY_LIMIT
    ∧ (freshRecord 0).summarizedCount ≤ (freshRecord 0).messages.length
    ∧ ([(⟨"user", "hi"⟩ : Turn)].foldl appendTurn (freshRecord 0)).messages.length ≤ HISTORY_LIMIT :=
  ⟨by decide, by decide,
    (c1_history_cap_invariant (freshRecord 0) [⟨"user", "hi"⟩] (by decide) (by decide)).2.1⟩

/-! ## Helper lemmas: pruning (C2, C3) -/

theorem pruneWin_idem (d now : Int) (l : List Int) :
    pruneWin d now (pruneWin d now l) = pruneWin d now l := by
  simp [pruneWin, List.filter_filter]

theorem pruneWin_compose (d t1 t2 : Int) (h : t1 ≤ t2) (l : List Int) :
    pruneWin d t2 (pruneWin d t1 l) = pruneWin d t2 l := by
  induction l with
  | nil => rfl
  | cons a l ih =>
    by_cases h1 : t1 - a < d
    · by_cases h2 : t2 - a < d <;>
        simp only [pruneWin, List.filter_cons, decide_eq_true_eq, h1, h2, if_true, if_false,
          ite_true, ite_false] at ih ⊢ <;>
        simp [h1, h2, ih]
    · have h2 : ¬(t2 - a < d) := by omega
      simp only [pruneWin, List.filter_cons, decide_eq_true_eq, h1, h2, ite_false] at ih ⊢
      simp [h1, h2, ih]

theorem pruneWin_append_self (d now : Int) (hd : 0 < d) (l : List Int) :
    pruneWin d now l ++ [now] = pruneWin d now (l ++ [now]) := by
  have hnn : now - now < d := by omega
  simp [pruneWin, List.filter_append, List.filter_cons, hnn, hd]

/-- C3 as stated is false: a rejected call can mutate the windows by
pruning expired timestamps in place.  With `PER_MIN = 2`, a record
holding hits at 0, 20000, 30000 and a call at `now = 70000`: the call
is rejected with scope "minute", yet `min` has changed (the hit at 0
was pruned away). -/
theorem c3_counterexample :
    ((checkUserLimit 2 60 70000 ⟨[0, 20000, 30000], [0, 20000, 30000]⟩).1).ok = false
    ∧ ((checkUserLimit 2 60 70000 ⟨[0, 20000, 30000], [0, 20000, 30000]⟩).1).scope = some "minute"
    ∧ ((checkUserLimit 2 60 70000 ⟨[0, 20000, 30000], [0, 20000, 30000]⟩).2).min
        ≠ [0, 20000, 30000] := by
  decide

/-- C3 amended: a rejected call records no hit — the post-state windows
are exactly the pruned windows (sublists of the originals, nothing
appended) — and an immediate retry at the same instant is idempotent:
it returns the same decision and the same state.  Only admitted
requests consume quota. -/
theorem c3_reject_records_no_hit (pm ph : Nat) (now : Int) (rec : RateRec)
    (h : ((checkUserLimit pm ph now rec).1).ok = false) :
    ((checkUserLimit pm ph now rec).2).min = pruneWin MINUTE_MS now rec.min
    ∧ ((checkUserLimit pm ph now rec).2).hour = pruneWin HOUR_MS now rec.hour
    ∧ List.Sublist ((checkUserLimit pm ph now rec).2).min rec.min
    ∧ List.Sublist ((checkUserLimit pm ph now rec).2).hour rec.hour
    ∧ checkUserLimit pm ph now ((checkUserLimit pm ph now rec).2) = checkUserLimit pm ph now rec := by
  by_cases hm : pm ≤ (pruneWin MINUTE_MS now rec.min).length
  · have e : checkUserLimit pm ph now rec =
        (⟨false, some "minute"⟩, ⟨pruneWin MINUTE_MS now rec.min, pruneWin HOUR_MS now rec.hour⟩) := by
      simp [checkUserLimit, hm]
    rw [e]
    refine ⟨rfl, rfl, List.filter_sublist _, List.filter_sublist _, ?_⟩
    simp [checkUserLimit, pruneWin_idem, hm]
  · by_cases hh : ph ≤ (pruneWin HOUR_MS now rec.hour).length
    · have e : checkUserLimit pm ph now rec =
          (⟨false, some "hour"⟩, ⟨pruneWin MINUTE_MS now rec.min, pruneWin HOUR_MS now rec.hour⟩) := by
        simp [checkUserLimit, hm, hh]
      rw [e]
      refine ⟨rfl, rfl, List.filter_sublist _, List.filter_sublist _, ?_⟩
      simp [checkUserLimit, pruneWin_idem, hm, hh]
    · exfalso
      have e : ((checkUserLimit pm ph now rec).1).ok = true := by
        simp [checkUserLimit, hm, hh]
      rw [e] at h
      exact Bool.noConfusion h

/-- Witness for the amended C3 at a concrete rejected call
(`PER_MIN = 0` rejects immediately). -/
theorem c3_reject_records_no_hit_witness :
    ((checkUserLimit 0 0 0 ⟨[], []⟩).1).ok = false
    ∧ checkUserLimit 0 0 0 ((checkUserLimit 0 0 0 ⟨[], []⟩).2) = checkUserLimit 0 0 0 ⟨[], []⟩ :=
  ⟨by decide, (c3_reject_records_no_hit 0 0 0 ⟨[], []⟩ (by decide)).2.2.2.2⟩

/-! ## Helper lemmas: the sliding-window admission bound (C2) -/

theorem admittedTimes_nil (pm ph : Nat) (rec : RateRec) :
    admittedTimes pm ph rec [] = [] := rfl

theorem admittedTimes_cons (pm ph : Nat) (rec : RateRec) (t : Int) (ts : List Int) :
    admittedTimes pm ph rec (t :: ts) =
      (if (checkUserLimit pm ph t rec).1.ok then [t] else [])
        ++ admittedTimes pm ph (checkUserLimit pm ph t rec).2 ts := by
  by_cases h : (checkUserLimit pm ph t rec).1.ok <;>
    simp [admittedTimes, runRate, List.filter_cons, h]

/-- Core run invariant: starting from the canonical state reached
after admitting the (sorted) timestamps `adm` no later than `tprev`,
every timestamp `t` the limiter goes on to admit passed both window
checks against exactly the previously admitted timestamps, and the
admitted timestamps stay in order. -/
theorem run_spec (pm ph : Nat) :
    ∀ (ts : List Int) (tprev : Int) (adm : List Int),
      List.Chain (· ≤ ·) tprev ts →
      (∀ s ∈ adm, s ≤ tprev) →
      ∀ xs t ys,
        admittedTimes pm ph ⟨pruneWin MINUTE_MS tprev adm, pruneWin HOUR_MS tprev adm⟩ ts
          = xs ++ t :: ys →
        ((pruneWin MINUTE_MS t (adm ++ xs)).length < pm
          ∧ (pruneWin HOUR_MS t (adm ++ xs)).length < ph)
          ∧ (∀ s ∈ adm ++ xs, s ≤ t) := by
  intro ts
  induction ts with
  | nil =>
    intro tprev adm _ _ xs t ys hsplit
    rw [admittedTimes_nil] at hsplit
    exact absurd hsplit (by simp)
  | cons t0 ts ih =>
    intro tprev adm hchain hadm xs t ys hsplit
    rw [List.chain_cons] at hchain
    obtain ⟨hle, hchain0⟩ := hchain
    have em : pruneWin MINUTE_MS t0 (pruneWin MINUTE_MS tprev adm) = pruneWin MINUTE_MS t0 adm :=
      pruneWin_compose _ _ _ hle _
    have eh : pruneWin HOUR_MS t0 (pruneWin HOUR_MS tprev adm) = pruneWin HOUR_MS t0 adm :=
      pruneWin_compose _ _ _ hle _
    have hadm0 : ∀ s ∈ adm, s ≤ t0 := fun s hs => le_trans (hadm s hs) hle
    rw [admittedTimes_cons] at hsplit
    by_cases hm : pm ≤ (pruneWin MINUTE_MS t0 adm).length
    · have e : checkUserLimit pm ph t0 ⟨pruneWin MINUTE_MS tprev adm, pruneWin HOUR_MS tprev adm⟩
          = (⟨false, some "minute"⟩, ⟨pruneWin MINUTE_MS t0 adm, pruneWin HOUR_MS t0 adm⟩) := by
        simp [checkUserLimit, em, eh, hm]
      rw [e] at hsplit
      simp only [if_neg (by simp : ¬((⟨false, some "minute"⟩ : Decision).ok = true)),
        List.nil_append] at hsplit
      exact ih t0 adm hchain0 hadm0 xs t ys hsplit
    · by_cases hh : ph ≤ (pruneWin HOUR_MS t0 adm).length
      · have e : checkUserLimit pm ph t0 ⟨pruneWin MINUTE_MS tprev adm, pruneWin HOUR_MS tprev adm⟩
            = (⟨false, some "hour"⟩, ⟨pruneWin MINUTE_MS t0 adm, pruneWin HOUR_MS t0 adm⟩) := by
          simp [checkUserLimit, em, eh, hm, hh]
        rw [e] at hsplit
        simp only [if_neg (by simp : ¬((⟨false, some "hour"⟩ : Decision).ok = true)),
          List.nil_append] at hsplit
        exact ih t0 adm hchain0 hadm0 xs t ys hsplit
      · have e : checkUserLimit pm ph t0 ⟨pruneWin MINUTE_MS tprev adm, pruneWin HOUR_MS tprev adm⟩
            = (⟨true, none⟩,
               ⟨pruneWin MINUTE_MS t0 (adm ++ [t0]), pruneWin HOUR_MS t0 (adm ++ [t0])⟩) := by
          rw [← pruneWin_append_self MINUTE_MS t0 (by norm_num [MINUTE_MS]) adm,
            ← pruneWin_append_self HOUR_MS t0 (by norm_num [HOUR_MS]) adm]
          simp [checkUserLimit, em, eh, hm, hh]
        rw [e] at hsplit
        simp only [if_pos (by simp : (⟨true, none⟩ : Decision).ok = true),
          List.singleton_append] at hsplit
        have hadm1 : ∀ s ∈ adm ++ [t0], s ≤ t0 := by
          intro s hs
          rcases List.mem_append.mp hs with h1 | h1
          · exact hadm0 s h1
          · simp at h1; omega
        cases xs with
        | nil =>
          rw [List.nil_append] at hsplit
          obtain ⟨he, -⟩ := List.cons.inj hsplit
          subst he
          refine ⟨⟨?_, ?_⟩, ?_⟩
          · simp only [List.append_nil]; omega
          · simp only [List.append_nil]; omega
          · simpa using hadm0
        | cons x xs =>
          obtain ⟨he, hsplit2⟩ := List.cons.inj hsplit
          subst he
          have hrec := ih t0 (adm ++ [t0]) hchain0 hadm1 xs t ys hsplit2
          rw [List.append_assoc] at hrec
          simpa [List.singleton_append] using hrec

/-- Counting bound: if every element of `adm` passed a `d`-window
check of threshold `lim` against the elements before it, and elements
are in order, then no half-open span `[a, a + d)` holds more than
`lim` elements of `adm`. -/
theorem span_bound (d : Int) (lim : Nat) :
    ∀ (adm : List Int),
      (∀ xs t ys, adm = xs ++ t :: ys →
        (pruneWin d t xs).length < lim ∧ ∀ s ∈ xs, s ≤ t) →
      ∀ a : Int, adm.countP (fun s => decide (a ≤ s ∧ s < a + d)) ≤ lim := by
  intro adm
  induction adm using List.reverseRecOn with
  | nil => intro _ a; simp
  | append_singleton xs t ih =>
    intro H a
    have Hxs : ∀ as u bs, xs = as ++ u :: bs →
        (pruneWin d u as).length < lim ∧ ∀ s ∈ as, s ≤ u := by
      intro as u bs he
      exact H as u (bs ++ [t]) (by rw [he]; simp)
    have hlast := H xs t [] rfl
    rw [List.countP_append, List.countP_singleton]
    by_cases ht : a ≤ t ∧ t < a + d
    · have hcnt : (xs.countP fun s => decide (a ≤ s ∧ s < a + d)) ≤ (pruneWin d t xs).length := by
        rw [pruneWin, ← List.countP_eq_length_filter]
        apply List.countP_mono_left
        intro s hs hsp
        have h1 : a ≤ s ∧ s < a + d := of_decide_eq_true hsp
        have h2 : s ≤ t := hlast.2 s hs
        apply decide_eq_true
        omega
      have hlt := hlast.1
      simp only [decide_eq_true_eq]
      rw [if_pos ht]
      omega
    · simp only [decide_eq_true_eq, if_neg ht, Nat.add_zero]
      exact ih Hxs a

/-- C2: (1) each `checkUserLimit` call prunes both windows to the
timestamps within 60s / 3600s of `now`, rejects with scope "minute"
when the pruned minute window already holds `PER_MIN` hits, else with
scope "hour" when the pruned hour window holds `PER_HOUR` hits, else
records `now` in both windows and admits; (2,3) consequently, for a
fresh user and any non-decreasing sequence of call times, at most
`PER_MIN` calls are admitted within any 60s span and at most
`PER_HOUR` within any 3600s span; (4) with `PER_MIN = 2`, three calls
within one second admit the first two and reject the third with scope
"minute". -/
theorem c2_rate_limiter_windows (pm ph : Nat) (ts : List Int)
    (hts : List.Chain' (· ≤ ·) ts) (a : Int) :
    (∀ (now : Int) (rec : RateRec),
        checkUserLimit pm ph now rec =
          (let m := pruneWin MINUTE_MS now rec.min
           let h := pruneWin HOUR_MS now rec.hour
           if pm ≤ m.length then (⟨false, some "minute"⟩, ⟨m, h⟩)
           else if ph ≤ h.length then (⟨false, some "hour"⟩, ⟨m, h⟩)
           else (⟨true, none⟩, ⟨m ++ [now], h ++ [now]⟩)))
    ∧ (admittedTimes pm ph ⟨[], []⟩ ts).countP
        (fun s => decide (a ≤ s ∧ s < a + MINUTE_MS)) ≤ pm
    ∧ (admittedTimes pm ph ⟨[], []⟩ ts).countP
        (fun s => decide (a ≤ s ∧ s < a + HOUR_MS)) ≤ ph
    ∧ (runRate 2 60 ⟨[], []⟩ [0, 500, 900]).1.map (fun p => p.2)
        = [⟨true, none⟩, ⟨true, none⟩, ⟨false, some "minute"⟩] := by
  have hspec : ∀ xs t ys, admittedTimes pm ph ⟨[], []⟩ ts = xs ++ t :: ys →
      ((pruneWin MINUTE_MS t xs).length < pm ∧ (pruneWin HOUR_MS t xs).length < ph)
        ∧ ∀ s ∈ xs, s ≤ t := by
    cases ts with
    | nil =>
      intro xs t ys hsplit
      rw [admittedTimes_nil] at hsplit
      exact absurd hsplit (by simp)
    | cons t0 rest =>
      intro xs t ys hsplit
      have hchain : List.Chain (· ≤ ·) t0 (t0 :: rest) :=
        List.chain_cons.mpr ⟨le_refl t0, hts⟩
      have h0 : (⟨[], []⟩ : RateRec)
          = ⟨pruneWin MINUTE_MS t0 [], pruneWin HOUR_MS t0 []⟩ := rfl
      rw [h0] at hsplit
      have := run_spec pm ph (t0 :: rest) t0 [] hchain (by simp) xs t ys hsplit
      simpa using this
  refine ⟨fun now rec => rfl, ?_, ?_, by decide⟩
  · exact span_bound MINUTE_MS pm (admittedTimes pm ph ⟨[], []⟩ ts)
      (fun xs t ys he => ⟨(hspec xs t ys he).1.1, (hspec xs t ys he).2⟩) a
  · exact span_bound HOUR_MS ph (admittedTimes pm ph ⟨[], []⟩ ts)
      (fun xs t ys he => ⟨(hspec xs t ys he).1.2, (hspec xs t ys he).2⟩) a

/-- Witness for C2 at the concrete scenario trace. -/
theorem c2_rate_limiter_windows_witness :
    List.Chain' (fun x y => x ≤ y) ([0, 500, 900] : List Int)
    ∧ (admittedTimes 2 60 ⟨[], []⟩ [0, 500, 900]).countP
        (fun s => decide ((0 : Int) ≤ s ∧ s < 0 + MINUTE_MS)) ≤ 2 :=
  ⟨by simp [List.chain'_cons], (c2_rate_limiter_windows 2 60 [0, 500, 900] (by simp [List.chain'_cons]) 0).2.1⟩

/-! ## Helper lemmas: the smart context builder (C4-C7) -/

theorem buildContext_short (s : String → List Turn → String) (rec : Record)
    (h : rec.messages.length ≤ RECENT_RAW_LIMIT) :
    buildContext s rec =
      ({ rec with summary := "", summarizedCount := 0 },
       sysTurn :: rec.messages, []) := by
  have h0 : rec.messages.length - RECENT_RAW_LIMIT = 0 := by omega
  simp [buildContext, contextList, h0]

theorem buildContext_mid (s : String → List Turn → String) (rec : Record)
    (h1 : 0 < rec.messages.length - RECENT_RAW_LIMIT)
    (h2 : rec.summarizedCount < rec.messages.length - RECENT_RAW_LIMIT) :
    buildContext s rec =
      (let olderCount := rec.messages.length - RECENT_RAW_LIMIT
       let newChunk := (rec.messages.drop rec.summarizedCount).take
         (olderCount - rec.summarizedCount)
       ({ rec with
           summary := s rec.summary newChunk,
           summarizedCount := olderCount },
        contextList (s rec.summary newChunk)
          (rec.messages.drop (rec.messages.length - RECENT_RAW_LIMIT)),
        [(rec.summary, newChunk)])) := by
  simp [buildContext, h1, h2]

theorem buildContext_done (s : String → List Turn → String) (rec : Record)
    (h1 : 0 < rec.messages.length - RECENT_RAW_LIMIT)
    (h2 : ¬ rec.summarizedCount < rec.messages.length - RECENT_RAW_LIMIT) :
    buildContext s rec =
      (rec,
       contextList rec.summary (rec.messages.drop (rec.messages.length - RECENT_RAW_LIMIT)),
       []) := by
  simp [buildContext, h1, h2]

/-- The output prompt is a function of the updated record alone, the
`messages` field of the record is untouched, and so is `lastSeen` (within lines
205-243; `getRecord` refreshes `lastSeen` separately). -/
theorem buildContext_out (s : String → List Turn → String) (rec : Record) :
    (buildContext s rec).2.1 =
      contextList (buildContext s rec).1.summary
        (rec.messages.drop (rec.messages.length - RECENT_RAW_LIMIT))
    ∧ (buildContext s rec).1.messages = rec.messages
    ∧ (buildContext s rec).1.lastSeen = rec.lastSeen := by
  by_cases h1 : 0 < rec.messages.length - RECENT_RAW_LIMIT
  · by_cases h2 : rec.summarizedCount < rec.messages.length - RECENT_RAW_LIMIT
    · rw [buildContext_mid s rec h1 h2]
      exact ⟨rfl, rfl, rfl⟩
    · rw [buildContext_done s rec h1 h2]
      exact ⟨rfl, rfl, rfl⟩
  · have h : rec.messages.length ≤ RECENT_RAW_LIMIT := by omega
    have h0 : rec.messages.length - RECENT_RAW_LIMIT = 0 := by omega
    rw [buildContext_short s rec h]
    refine ⟨?_, rfl, rfl⟩
    simp [contextList, h0]

/-- Building twice in a row: the second call leaves the record as the
first call left it, and makes no summarizer call. -/
theorem buildContext_stable (s : String → List Turn → String) (rec : Record) :
    (buildContext s (buildContext s rec).1).1 = (buildContext s rec).1
    ∧ (buildContext s (buildContext s rec).1).2.2 = [] := by
  by_cases h1 : 0 < rec.messages.length - RECENT_RAW_LIMIT
  · by_cases h2 : rec.summarizedCount < rec.messages.length - RECENT_RAW_LIMIT
    · rw [buildContext_mid s rec h1 h2]
      rw [buildContext_done s _ (by simpa using h1) (by simp)]
      exact ⟨rfl, rfl⟩
    · rw [buildContext_done s rec h1 h2]
      rw [buildContext_done s rec h1 h2]
      exact ⟨rfl, rfl⟩
  · have h : rec.messages.length ≤ RECENT_RAW_LIMIT := by omega
    rw [buildContext_short s rec h]
    rw [buildContext_short s _ (by simpa using h)]
    exact ⟨rfl, rfl⟩

/-- C5: the returned prompt is the fixed system instruction, then a
system entry carrying the (updated) summary exactly when it is
non-empty, then the last `min(RECENT_RAW_LIMIT, messages.length)`
stored turns in original order; the call never changes `messages` (or
`lastSeen`) — only `summary` and `summarizedCount`.  As a pure
function of the record, the result is deterministic by construction. -/
theorem c5_context_shape (s : String → List Turn → String) (rec : Record) :
    (buildContext s rec).2.1 =
      sysTurn ::
        ((if (buildContext s rec).1.summary = "" then []
          else [summaryTurn (buildContext s rec).1.summary])
          ++ rec.messages.drop (rec.messages.length - RECENT_RAW_LIMIT))
    ∧ (buildContext s rec).1.messages = rec.messages
    ∧ (buildContext s rec).1.lastSeen = rec.lastSeen := by
  obtain ⟨h1, h2, h3⟩ := buildContext_out s rec
  refine ⟨?_, h2, h3⟩
  rw [h1, contextList]
  by_cases hs : (buildContext s rec).1.summary = "" <;> simp [hs]

/-- C6: a conversation at or under `RECENT_RAW_LIMIT` stored turns
never invokes the Summarizer, and `buildContext` leaves
`summary = ""` and `summarizedCount = 0` — in particular any stale
non-empty summary is discarded, not retained. -/
theorem c6_short_resets_summary (s : String → List Turn → String) (rec : Record)
    (h : rec.messages.length ≤ RECENT_RAW_LIMIT) :
    (buildContext s rec).2.2 = []
    ∧ (buildContext s rec).1.summary = ""
    ∧ (buildContext s rec).1.summarizedCount = 0 := by
  rw [buildContext_short s rec h]
  exact ⟨rfl, rfl, rfl⟩

/-- Witness for C6: a record that had grown a summary but now holds a
single message; the next build resets the stale summary. -/
theorem c6_short_resets_summary_witness :
    ([(⟨"user", "hi"⟩ : Turn)] : List Turn).length ≤ RECENT_RAW_LIMIT
    ∧ (buildContext (fun old _ => old)
        ⟨[⟨"user", "hi"⟩], "stale summary", 1, 0⟩).1.summary = "" :=
  ⟨by decide,
    (c6_short_resets_summary (fun old _ => old)
      ⟨[⟨"user", "hi"⟩], "stale summary", 1, 0⟩ (by decide)).2.1⟩

/-- C7: calling `buildContext` twice with no intervening append yields
the same prompt both times, and the second call does not invoke the
Summarizer. -/
theorem c7_build_idempotent (s : String → List Turn → String) (rec : Record) :
    (buildContext s (buildContext s rec).1).2.1 = (buildContext s rec).2.1
    ∧ (buildContext s (buildContext s rec).1).2.2 = [] := by
  obtain ⟨hst, hlog⟩ := buildContext_stable s rec
  refine ⟨?_, hlog⟩
  obtain ⟨ho1, hm1, -⟩ := buildContext_out s rec
  obtain ⟨ho2, -, -⟩ := buildContext_out s (buildContext s rec).1
  rw [ho1, ho2, hst, hm1]

/-! ## The C4 scenario: 51 user messages, no assistant replies -/

/-- A concrete summarizer standing in for `updateSummary` in the
scenario run (its value is irrelevant to what the log records). -/
def scenarioSummarizer : String → List Turn → String :=
  fun old chunk => old ++ String.intercalate "\n" (chunk.map Turn.content)

/-- The i-th user message of the scenario. -/
def scenarioTurn (i : Nat) : Turn :=
  ⟨"user", "m" ++ toString i⟩

/-- The record after the user sent messages 1..n, each handled as the
webhook does — append, then build context — with no assistant replies
appended. -/
def scenarioAfter (n : Nat) : Record :=
  ((List.range n).map (fun i => i + 1)).foldl
    (fun r i => (buildContext scenarioSummarizer (appendTurn r (scenarioTurn i))).1)
    (freshRecord 0)

/-- C4: whenever `olderCount = messages.length − RECENT_RAW_LIMIT > 0`
and `summarizedCount < olderCount`, `buildContext` invokes the
Summarizer once, with the existing summary and exactly the turns at
indices `[summarizedCount, olderCount)`, and sets
`summarizedCount = olderCount`.  In particular after 51 user messages
with no assistant replies, the 51st build passes exactly message #1
with the (empty) existing summary, and `summarizedCount` becomes 1. -/
theorem c4_summarizer_chunk (s : String → List Turn → String) (rec : Record)
    (h1 : 0 < rec.messages.length - RECENT_RAW_LIMIT)
    (h2 : rec.summarizedCount < rec.messages.length - RECENT_RAW_LIMIT) :
    (buildContext s rec).2.2 =
      [(rec.summary,
        (rec.messages.drop rec.summarizedCount).take
          (rec.messages.length - RECENT_RAW_LIMIT - rec.summarizedCount))]
    ∧ (buildContext s rec).1.summarizedCount = rec.messages.length - RECENT_RAW_LIMIT
    ∧ (buildContext scenarioSummarizer
          (appendTurn (scenarioAfter 50) (scenarioTurn 51))).2.2
        = [("", [scenarioTurn 1])]
    ∧ (buildContext scenarioSummarizer
          (appendTurn (scenarioAfter 50) (scenarioTurn 51))).1.summarizedCount = 1 := by
  rw [buildContext_mid s rec h1 h2]
  exact ⟨rfl, rfl, by decide, by decide⟩

/-- Witness for C4 at a concrete 51-turn record. -/
theorem c4_summarizer_chunk_witness :
    0 < ((List.range 51).map scenarioTurn).length - RECENT_RAW_LIMIT
    ∧ (buildContext scenarioSummarizer
        ⟨(List.range 51).map scenarioTurn, "", 0, 0⟩).1.summarizedCount
      = ((List.range 51).map scenarioTurn).length - RECENT_RAW_LIMIT :=
  ⟨by decide,
    (c4_summarizer_chunk scenarioSummarizer
      ⟨(List.range 51).map scenarioTurn, "", 0, 0⟩ (by decide) (by decide)).2.1⟩

/-! ## C8: summarizer no-op and failure policy -/

/-- C8: `updateSummary` with an empty chunk returns the existing
summary unchanged without calling the collaborator; and whenever the
collaborator call throws, the error is swallowed and the existing
summary is returned unchanged. -/
theorem c8_summary_failure_policy :
    (∀ (complete : List Turn → Except Unit (Option String)) (s : String),
        updateSummary complete s [] = (s, false))
    ∧ (∀ (complete : List Turn → Except Unit (Option String)) (s : String)
        (l : List Turn) (e : Unit),
        complete (summaryRequest s (renderChunk l)) = Except.error e →
        (updateSummary complete s l).1 = s) := by
  constructor
  · intro complete s
    rfl
  · intro complete s l e herr
    cases l with
    | nil => rfl
    | cons t l =>
      simp [updateSummary, herr]

/-- Witness for C8 at an always-failing collaborator. -/
theorem c8_summary_failure_policy_witness :
    (fun _ => Except.error () :
        List Turn → Except Unit (Option String))
      (summaryRequest "prior summary" (renderChunk [⟨"user", "hi"⟩]))
      = Except.error ()
    ∧ (updateSummary (fun _ => Except.error ()) "prior summary" [⟨"user", "hi"⟩]).1
      = "prior summary" :=
  ⟨rfl,
    c8_summary_failure_policy.2 (fun _ => Except.error ()) "prior summary"
      [⟨"user", "hi"⟩] () rfl⟩

/-! ## Helper lemmas: the eviction scan and the user-count bound
(C9, C10) -/

theorem foldl_olderAcc_spec :
    ∀ (m : HistMap) (acc : Option (String × Int)) (k : String) (t : Int),
      m.foldl olderAcc acc = some (k, t) →
      (acc = some (k, t) ∨ ∃ r, (k, r) ∈ m ∧ r.lastSeen = t)
      ∧ (∀ kv ∈ m, t ≤ kv.2.lastSeen)
      ∧ (∀ k0 t0, acc = some (k0, t0) → t ≤ t0) := by
  intro m
  induction m with
  | nil =>
    intro acc k t h
    rw [List.foldl_nil] at h
    refine ⟨Or.inl h, by simp, fun k0 t0 ha => ?_⟩
    rw [ha] at h
    obtain ⟨-, h2⟩ := Prod.mk.inj (Option.some.inj h)
    omega
  | cons kv rest ih =>
    intro acc k t h
    rw [List.foldl_cons] at h
    obtain ⟨h1, h2, h3⟩ := ih (olderAcc acc kv) k t h
    refine ⟨?_, ?_, ?_⟩
    · rcases h1 with h1 | ⟨r, hr, hrt⟩
      · cases acc with
        | none =>
          simp only [olderAcc] at h1
          obtain ⟨hk1, ht1⟩ := Prod.mk.inj (Option.some.inj h1)
          right
          refine ⟨kv.2, ?_, ht1⟩
          rw [← hk1]
          simp
        | some p =>
          obtain ⟨pk, pt⟩ := p
          by_cases hlt : kv.2.lastSeen < pt
          · simp only [olderAcc, if_pos hlt] at h1
            obtain ⟨hk1, ht1⟩ := Prod.mk.inj (Option.some.inj h1)
            right
            refine ⟨kv.2, ?_, ht1⟩
            rw [← hk1]
            simp
          · simp only [olderAcc, if_neg hlt] at h1
            exact Or.inl h1
      · exact Or.inr ⟨r, List.mem_cons_of_mem _ hr, hrt⟩
    · intro kv1 hkv1
      rcases List.mem_cons.mp hkv1 with heq | hkv1
      · subst heq
        cases acc with
        | none => exact h3 kv1.1 kv1.2.lastSeen (by simp [olderAcc])
        | some p =>
          obtain ⟨pk, pt⟩ := p
          by_cases hlt : kv1.2.lastSeen < pt
          · exact h3 kv1.1 kv1.2.lastSeen (by simp [olderAcc, hlt])
          · have hb := h3 pk pt (by simp [olderAcc, hlt])
            omega
      · exact h2 kv1 hkv1
    · intro k0 t0 ha
      subst ha
      by_cases hlt : kv.2.lastSeen < t0
      · have hb := h3 kv.1 kv.2.lastSeen (by simp [olderAcc, hlt])
        omega
      · exact h3 k0 t0 (by simp [olderAcc, hlt])

/-- The scan returns a key that is present in the map and whose
`lastSeen` is minimal over the map. -/
theorem oldestEntry_mem_min (m : HistMap) (k : String) (h : oldestEntry m = some k) :
    ∃ r, (k, r) ∈ m ∧ ∀ kv ∈ m, r.lastSeen ≤ kv.2.lastSeen := by
  rw [oldestEntry] at h
  obtain ⟨q, hq, hqk⟩ := Option.map_eq_some'.mp h
  obtain ⟨qk, qt⟩ := q
  subst hqk
  obtain ⟨h1, h2, -⟩ := foldl_olderAcc_spec m none qk qt hq
  rcases h1 with h1 | ⟨r, hr, hrt⟩
  · exact absurd h1 (by simp)
  · exact ⟨r, hr, fun kv hkv => hrt ▸ h2 kv hkv⟩

theorem foldl_olderAcc_isSome :
    ∀ (m : HistMap) (p : String × Int), ∃ q, m.foldl olderAcc (some p) = some q := by
  intro m
  induction m with
  | nil => intro p; exact ⟨p, rfl⟩
  | cons kv rest ih =>
    intro p
    obtain ⟨pk, pt⟩ := p
    rw [List.foldl_cons]
    by_cases hlt : kv.2.lastSeen < pt
    · simpa [olderAcc, hlt] using ih (kv.1, kv.2.lastSeen)
    · simpa [olderAcc, hlt] using ih (pk, pt)

/-- On a non-empty map the scan always finds a key (size > 500 in the
eviction branch guarantees non-emptiness). -/
theorem oldestEntry_some_of_ne_nil (m : HistMap) (h : m ≠ []) :
    ∃ k, oldestEntry m = some k := by
  cases m with
  | nil => exact absurd rfl h
  | cons kv rest =>
    obtain ⟨q, hq⟩ := foldl_olderAcc_isSome rest (kv.1, kv.2.lastSeen)
    refine ⟨q.1, ?_⟩
    rw [oldestEntry, List.foldl_cons]
    simp only [olderAcc]
    rw [hq]
    rfl

theorem length_getRecordStore (now : Int) (uid : String) (m : HistMap) :
    (getRecordStore now uid m).length ≤ m.length + 1 := by
  rw [getRecordStore]
  split
  · simp
  · simp

theorem length_histAfterAppend (now : Int) (uid role content : String) (m : HistMap) :
    (histAfterAppend now uid role content m).length ≤ m.length + 1 := by
  rw [histAfterAppend, List.length_map]
  exact length_getRecordStore now uid m

/-- Every key present after the append step is the key of the appended
user or a key that was already tracked. -/
theorem keys_histAfterAppend (now : Int) (uid role content : String) (m : HistMap) :
    ∀ kv ∈ histAfterAppend now uid role content m,
      kv.1 = uid ∨ ∃ kv0 ∈ m, kv.1 = kv0.1 := by
  intro kv hkv
  rw [histAfterAppend] at hkv
  obtain ⟨kv1, hkv1, hkveq⟩ := List.mem_map.mp hkv
  have hfst : kv.1 = kv1.1 := by
    by_cases hb : kv1.1 == uid
    · rw [if_pos hb] at hkveq
      rw [← hkveq]
    · rw [if_neg hb] at hkveq
      rw [← hkveq]
  rw [getRecordStore] at hkv1
  by_cases hany : m.any (fun kv => kv.1 == uid)
  · rw [if_pos hany] at hkv1
    obtain ⟨kv0, hkv0, hkv0eq⟩ := List.mem_map.mp hkv1
    right
    refine ⟨kv0, hkv0, ?_⟩
    rw [hfst]
    by_cases hb : kv0.1 == uid
    · rw [if_pos hb] at hkv0eq
      rw [← hkv0eq]
    · rw [if_neg hb] at hkv0eq
      rw [← hkv0eq]
  · rw [if_neg hany] at hkv1
    rcases List.mem_append.mp hkv1 with hmem | hmem
    · right
      exact ⟨kv1, hmem, hfst⟩
    · left
      have h1 : kv1 = (uid, freshRecord now) := by simpa using hmem
      rw [hfst, h1]

/-- Distinct single-character user keys for concrete stores. -/
def cKey (i : Nat) : String :=
  String.mk [Char.ofNat (65 + i)]

/-- A store at capacity (500 tracked users), the user "old" being the
oldest by `lastSeen` and holding a rate record with one hit.  Such a
state arises from 500 users messaging once each, "old" first. -/
def st9 : StoreState :=
  ⟨("old", freshRecord 0)
      :: (List.range 499).map (fun i => (cKey i, freshRecord (Int.ofNat i + 1))),
   [("old", ⟨[5], [5]⟩)]⟩

/-- C9 as stated is false: capacity-based eviction deletes the evicted
ConversationRecord of the evicted user from `historyByUser` but never
touches `userRate` — the RateRecord of that user survives (only the interval
sweeper of lines 119-127 deletes from both maps).  Concretely: `st9`
holds 500 users; an append by a 501st user evicts "old" from the history
map, yet "old" keeps its rate record. -/
theorem c9_counterexample :
    (pushToHistory 1000 "zz" "user" "hi" st9).historyByUser.lookup "old" = none
    ∧ (pushToHistory 1000 "zz" "user" "hi" st9).userRate.lookup "old" = some ⟨[5], [5]⟩
    ∧ st9.userRate.lookup "old" = some ⟨[5], [5]⟩ := by
  decide

/-- C9 amended: when an append pushes the tracked-user count over
`MAX_USERS_IN_MEMORY` and the eviction scan finds a (non-empty) key,
that key has the oldest `lastSeen` of the map and exactly its
ConversationRecord is deleted; the RateRecord of that user is NOT destroyed
— `pushToHistory` leaves `userRate` unchanged. -/
theorem c9_eviction_spares_rate_record (now : Int) (uid role content : String)
    (st : StoreState) (k : String)
    (hbig : MAX_USERS_IN_MEMORY < (histAfterAppend now uid role content st.historyByUser).length)
    (hold : oldestEntry (histAfterAppend now uid role content st.historyByUser) = some k)
    (hk : ¬ k = "") :
    (pushToHistory now uid role content st).historyByUser
      = (histAfterAppend now uid role content st.historyByUser).eraseP (fun kv => kv.1 == k)
    ∧ (pushToHistory now uid role content st).userRate = st.userRate
    ∧ ∃ r, (k, r) ∈ histAfterAppend now uid role content st.historyByUser
        ∧ ∀ kv ∈ histAfterAppend now uid role content st.historyByUser,
            r.lastSeen ≤ kv.2.lastSeen := by
  refine ⟨?_, rfl, oldestEntry_mem_min _ k hold⟩
  rw [pushToHistory, evictIfNeeded]
  rw [if_pos hbig, hold]
  simp [hk]

/-- Witness for the amended C9 at the concrete 500-user store. -/
theorem c9_eviction_spares_rate_record_witness :
    MAX_USERS_IN_MEMORY < (histAfterAppend 1000 "zz" "user" "hi" st9.historyByUser).length
    ∧ oldestEntry (histAfterAppend 1000 "zz" "user" "hi" st9.historyByUser) = some "old"
    ∧ (pushToHistory 1000 "zz" "user" "hi" st9).userRate = st9.userRate :=
  ⟨by decide, by decide,
    (c9_eviction_spares_rate_record 1000 "zz" "user" "hi" st9 "old"
      (by decide) (by decide) (by decide)).2.1⟩

/-- A store of 500 users whose oldest (by `lastSeen`) key is the empty
string. -/
def st10 : StoreState :=
  ⟨("", freshRecord 0)
      :: (List.range 499).map (fun i => (cKey i, freshRecord (Int.ofNat i + 1))),
   []⟩

/-- C10 as stated is false: the eviction guard `if (oldestKey)` is a
JS truthiness test, so when the user with the oldest `lastSeen` has
the empty string as key, nothing is evicted and the tracked-user count
exceeds `MAX_USERS_IN_MEMORY` after the call.  Concretely: `st10`
tracks 500 users (within the bound), the oldest keyed `""`; appending
a 501st user leaves 501 tracked users. -/
theorem c10_counterexample :
    st10.historyByUser.length = 500
    ∧ (pushToHistory 1000 "zz" "user" "hi" st10).historyByUser.length = 501 := by
  decide

/-- C10 amended: provided the key of the appended user and all tracked keys
are non-empty, the bound holds: an append adds at most one tracked
user, and when the count exceeds `MAX_USERS_IN_MEMORY` the user found
by the scan (oldest `lastSeen`) is removed, so after every `pushToHistory` call
the count is at most `MAX_USERS_IN_MEMORY` (500). -/
theorem c10_user_cap (now : Int) (uid role content : String) (st : StoreState)
    (huid : ¬ uid = "")
    (hkeys : ∀ kv ∈ st.historyByUser, ¬ kv.1 = "")
    (hlen : st.historyByUser.length ≤ MAX_USERS_IN_MEMORY) :
    (histAfterAppend now uid role content st.historyByUser).length
      ≤ st.historyByUser.length + 1
    ∧ (pushToHistory now uid role content st).historyByUser.length ≤ MAX_USERS_IN_MEMORY := by
  refine ⟨length_histAfterAppend now uid role content st.historyByUser, ?_⟩
  rw [pushToHistory]
  show (evictIfNeeded (histAfterAppend now uid role content st.historyByUser)).length
    ≤ MAX_USERS_IN_MEMORY
  rw [evictIfNeeded]
  by_cases hbig : MAX_USERS_IN_MEMORY
      < (histAfterAppend now uid role content st.historyByUser).length
  · rw [if_pos hbig]
    have hne : histAfterAppend now uid role content st.historyByUser ≠ [] := by
      intro he
      rw [he] at hbig
      simp [MAX_USERS_IN_MEMORY] at hbig
    obtain ⟨k, hk⟩ := oldestEntry_some_of_ne_nil _ hne
    rw [hk]
    obtain ⟨r, hmem, -⟩ := oldestEntry_mem_min _ k hk
    have hkne : ¬ k = "" := by
      rcases keys_histAfterAppend now uid role content st.historyByUser (k, r) hmem with
        he | ⟨kv0, hkv0, he⟩
      · have hke : k = uid := he
        rw [hke]
        exact huid
      · have hke : k = kv0.1 := he
        rw [hke]
        exact hkeys kv0 hkv0
    have herase : ((histAfterAppend now uid role content st.historyByUser).eraseP
        (fun kv => kv.1 == k)).length + 1
        = (histAfterAppend now uid role content st.historyByUser).length :=
      List.length_eraseP_add_one hmem (by simp)
    have hupper := length_histAfterAppend now uid role content st.historyByUser
    simp only [hkne, if_false]
    omega
  · rw [if_neg hbig]
    omega

/-- Witness for the amended C10 at a small store. -/
theorem c10_user_cap_witness :
    ¬ ("zz" : String) = ""
    ∧ (pushToHistory 1000 "zz" "user" "hi"
        ⟨[("aa", freshRecord 0)], []⟩).historyByUser.length ≤ MAX_USERS_IN_MEMORY :=
  ⟨by decide,
    (c10_user_cap 1000 "zz" "user" "hi" ⟨[("aa", freshRecord 0)], []⟩
      (by decide) (by decide) (by decide)).2⟩

end PrinceBot
